import Mathlib

/-!
Shallow embedding of the dependency-graph core of cargo-deps (src/graph.rs,
with the declared-dependency map type from src/project.rs) and proofs about
its normalization passes.

Modelling conventions:
* Rust `usize` node ids become `Nat` (no arithmetic here ever overflows or
  wraps: ids only grow by pushes and shrink by checked decrements).
* A Rust index expression that can panic (out-of-bounds slice index,
  `Option::unwrap`) is modelled by an `Option` result at the function that
  contains it: `none` means the Rust code panics on that input.
* `Vec::sort` / `Vec::sort_by_key` are stable sorts; they are modelled by a
  stable insertion sort (`sSort`).
-/

/-- The kinds of dependency declarations. The enum lives in src/dep.rs which
only re-exports it here; the constructor list is exactly the one matched on
in src/graph.rs. -/
inductive DepKind where
  | Regular
  | Build
  | Dev
  | Optional
  | Unknown
deriving DecidableEq, Repr

/-- A resolved dependency node (src/dep.rs `ResolvedDep`): the fields are the
ones read and written by src/graph.rs. Flags start out false. -/
structure ResolvedDep where
  name : String
  ver : String
  is_regular : Bool
  is_build : Bool
  is_dev : Bool
  is_optional : Bool
  force_write_ver : Bool
deriving DecidableEq, Repr

/-- `ResolvedDep::new(name, ver)`: a fresh node with all flags false. -/
def ResolvedDep.new (name ver : String) : ResolvedDep :=
  { name := name, ver := ver, is_regular := false, is_build := false,
    is_dev := false, is_optional := false, force_write_ver := false }

/-- Modelled from the spec: `ResolvedDep::kind()` is defined in src/dep.rs,
which is not among the provided sources; the spec (section 4.3) states the
effective single kind is derived from the flags by the priority
Regular > Build > Dev > Optional > Unknown. -/
def ResolvedDep.kind (d : ResolvedDep) : DepKind :=
  if d.is_regular then .Regular
  else if d.is_build then .Build
  else if d.is_dev then .Dev
  else if d.is_optional then .Optional
  else .Unknown

/-- Configuration record (src/config.rs), carried by the graph. -/
structure Config where
  dot_file : Option String
  filter : Option (List String)
  include_orphans : Bool
  include_vers : Bool
  manifest_path : String
  subgraph : Option (List String)
  subgraph_name : Option String
  regular_deps : Bool
  build_deps : Bool
  dev_deps : Bool
  optional_deps : Bool
deriving Repr

/-- A plain configuration used to build concrete graphs in the examples. -/
def testConfig : Config :=
  { dot_file := none, filter := none, include_orphans := false,
    include_vers := false, manifest_path := "Cargo.toml", subgraph := none,
    subgraph_name := none, regular_deps := true, build_deps := false,
    dev_deps := false, optional_deps := false }

/-- `Edge(Node, Node)`: an ordered pair of node ids. -/
abbrev Edge := Nat × Nat

/-- The derived lexicographic `Ord` on `Edge` ("Sorts by ID of first node
first, then by second node"), as a boolean comparator. -/
def edgeLe (a b : Edge) : Bool :=
  decide (a.1 < b.1) || (decide (a.1 = b.1) && decide (a.2 ≤ b.2))

/-- Stable insertion of `x` into a list: `x` is placed before the first
element `y` with `le x y`, hence before equal elements coming later. -/
def sInsert {α : Type} (le : α → α → Bool) (x : α) : List α → List α
  | [] => [x]
  | y :: ys => if le x y then x :: y :: ys else y :: sInsert le x ys

/-- Stable insertion sort, modelling Rust's stable `Vec::sort` and
`Vec::sort_by_key`. -/
def sSort {α : Type} (le : α → α → Bool) : List α → List α
  | [] => []
  | x :: xs => sInsert le x (sSort le xs)

/-- `DeclaredDepsMap` (src/project.rs): map from dependency name to the kinds
under which the root manifest declares it.  The `HashMap` is modelled as an
association list with first-match lookup. -/
abbrev DeclaredDepsMap := List (String × List DepKind)

/-- `HashMap::get` on the declared-deps map. -/
def lookupKinds (m : DeclaredDepsMap) (name : String) : Option (List DepKind) :=
  match m.find? (fun p => p.1 == name) with
  | some p => some p.2
  | none => none

/-- The dependency graph (src/graph.rs `DepGraph`). -/
structure DepGraph where
  nodes : List ResolvedDep
  edges : List Edge
  cfg : Config

/-- `DepGraph::get`: bounds-checked node access. -/
def DepGraph.get (g : DepGraph) (id : Nat) : Option ResolvedDep :=
  if id < g.nodes.length then g.nodes[id]? else none

/-- The match table at the end of `Edge::label`: the attribute text emitted
after a `parent.kind() × child-kind` pair, with the source's arm order. -/
def edgeLineFor (parent child : DepKind) : String :=
  match parent, child with
  | .Regular, .Regular => ";"
  | .Build, _ => " [color=purple, style=dashed];"
  | .Regular, .Build => " [color=purple, style=dashed];"
  | .Dev, _ => " [color=blue, style=dashed];"
  | .Regular, .Dev => " [color=blue, style=dashed];"
  | .Optional, _ => " [color=red, style=dashed];"
  | .Regular, .Optional => " [color=red, style=dashed];"
  | _, _ => " [color=orange, style=dashed];"

/-- The declared-kind choice for an edge leaving the root (`Edge::label`):
Regular, else Build, else Dev, else Optional, else Unknown. -/
def rootChildKind (kinds : List DepKind) : DepKind :=
  if kinds.contains .Regular then .Regular
  else if kinds.contains .Build then .Build
  else if kinds.contains .Dev then .Dev
  else if kinds.contains .Optional then .Optional
  else .Unknown

/-- `Edge::label`: the attribute text written for an edge line. `none` models
a panic: `dg.get(..).unwrap()` on an out-of-range endpoint, or
`root_deps_map.get(..).unwrap()` on a root edge whose target name is not in
the declared-deps map. -/
def Edge.label (e : Edge) (dg : DepGraph) (root_deps_map : DeclaredDepsMap) :
    Option String :=
  match dg.get e.1, dg.get e.2 with
  | some parent_dep, some child_dep =>
    if e.1 = 0 then
      match lookupKinds root_deps_map child_dep.name with
      | some kinds => some (edgeLineFor parent_dep.kind (rootChildKind kinds))
      | none => none
    else
      some (edgeLineFor parent_dep.kind child_dep.kind)
  | _, _ => none

/-- Reading one of the four kind flags (the `Unknown` column is constantly
false: there is no fifth flag). -/
def flagOf (d : ResolvedDep) : DepKind → Bool
  | .Regular => d.is_regular
  | .Build => d.is_build
  | .Dev => d.is_dev
  | .Optional => d.is_optional
  | .Unknown => false

/-- The flag `k` of node `i`, false when `i` is out of range. -/
def flagAt (ns : List ResolvedDep) (i : Nat) (k : DepKind) : Bool :=
  match ns[i]? with
  | some d => flagOf d k
  | none => false

/-- Setting the flag named by one declared kind (the root-edge arm of
`set_resolved_kind`; the `_ => ()` arm makes `Unknown` a no-op). -/
def setFlag (d : ResolvedDep) : DepKind → ResolvedDep
  | .Regular => { d with is_regular := true }
  | .Build => { d with is_build := true }
  | .Dev => { d with is_dev := true }
  | .Optional => { d with is_optional := true }
  | .Unknown => d

/-- The non-root arm of `set_resolved_kind`: every flag currently true on the
source is set on the target. -/
def copyFlags (src dst : ResolvedDep) : ResolvedDep :=
  { dst with
    is_regular := dst.is_regular || src.is_regular,
    is_build := dst.is_build || src.is_build,
    is_dev := dst.is_dev || src.is_dev,
    is_optional := dst.is_optional || src.is_optional }

/-- Processing one edge inside a pass of `set_resolved_kind`, as a total
function: the fallback branches are no-ops that are never taken when the
edge is in range.  The panic-tracking version is `stepEdgeP` below, which
agrees with this one wherever it does not panic. -/
def stepEdge (m : DeclaredDepsMap) (ns : List ResolvedDep) (e : Edge) :
    List ResolvedDep :=
  if e.1 = 0 then
    match ns[e.2]? with
    | some child =>
      match lookupKinds m child.name with
      | some kinds => ns.set e.2 (kinds.foldl setFlag child)
      | none => ns
    | none => ns
  else
    match ns[e.1]?, ns[e.2]? with
    | some src, some dst => ns.set e.2 (copyFlags src dst)
    | _, _ => ns

/-- One full pass of `set_resolved_kind` over the edge list. -/
def onePass (m : DeclaredDepsMap) (es : List Edge) (ns : List ResolvedDep) :
    List ResolvedDep :=
  es.foldl (stepEdge m) ns

/-- `n` passes over the edge list (the Rust `for _ in 0..10` loop runs 10),
in the panic-free executions: `runPassesP` below returns `some` of exactly
this value whenever no out-of-range index is dereferenced. -/
def runPasses (m : DeclaredDepsMap) (es : List Edge) (n : Nat)
    (ns : List ResolvedDep) : List ResolvedDep :=
  (onePass m es)^[n] ns

/-- `self.nodes[0].is_regular = true;` at the top of `set_resolved_kind`
(the `none` case is the empty node list, where the Rust code panics). -/
def markRoot (ns : List ResolvedDep) : List ResolvedDep :=
  match ns[0]? with
  | some d => ns.set 0 { d with is_regular := true }
  | none => ns

/-- Both endpoints of an edge are inside the node list. -/
def edgeInRange (len : Nat) (e : Edge) : Bool :=
  decide (e.1 < len) && decide (e.2 < len)

/-- Whether any of the four kind flags of a node is set: in the non-root arm
of a pass the target `nodes[ed.1]` is indexed (inside a guard) iff one of the
four `if self.nodes[ed.0].is_xxx` guards fires. -/
def anyFlag (d : ResolvedDep) : Bool :=
  d.is_regular || d.is_build || d.is_dev || d.is_optional

/-- Processing one edge, panics included.  `none` is a Rust index panic:
`nodes[ed.1]` is indexed unconditionally for a root-sourced edge (to read
its name, before the map lookup); `nodes[ed.0]` is read unconditionally for
any other edge; and `nodes[ed.1]` of a non-root edge is indexed only when
one of the four flag guards fires.  Where no panic occurs this agrees with
`stepEdge`. -/
def stepEdgeP (m : DeclaredDepsMap) (ns : List ResolvedDep) (e : Edge) :
    Option (List ResolvedDep) :=
  if e.1 = 0 then
    match ns[e.2]? with
    | some child =>
      match lookupKinds m child.name with
      | some kinds => some (ns.set e.2 (kinds.foldl setFlag child))
      | none => some ns
    | none => none
  else
    match ns[e.1]? with
    | none => none
    | some src =>
      if anyFlag src then
        match ns[e.2]? with
        | some dst => some (ns.set e.2 (copyFlags src dst))
        | none => none
      else some ns

/-- One pass over the edge list, stopping at the first panic. -/
def passP (m : DeclaredDepsMap) : List Edge → List ResolvedDep →
    Option (List ResolvedDep)
  | [], ns => some ns
  | e :: rest, ns =>
    match stepEdgeP m ns e with
    | some ns1 => passP m rest ns1
    | none => none

/-- `n` passes, stopping at the first panic. -/
def runPassesP (m : DeclaredDepsMap) (es : List Edge) : Nat →
    List ResolvedDep → Option (List ResolvedDep)
  | 0, ns => some ns
  | n + 1, ns =>
    match passP m es ns with
    | some ns1 => runPassesP m es n ns1
    | none => none

/-- `DepGraph::set_resolved_kind`: mark the root regular, sort the edges
in place, run 10 propagation passes.  `none` models the index panics:
`nodes[0].is_regular = true` on an empty node list, and the per-edge
dereferences tracked by `stepEdgeP`. -/
def DepGraph.set_resolved_kind (g : DepGraph) (m : DeclaredDepsMap) :
    Option DepGraph :=
  if g.nodes.isEmpty then none
  else
    match runPassesP m (sSort edgeLe g.edges) 10 (markRoot g.nodes) with
    | some ns1 =>
      some { g with nodes := ns1, edges := sSort edgeLe g.edges }
    | none => none

/-- The name of node `i` (`self.nodes[i].name`; use sites are in range). -/
def nameAt (ns : List ResolvedDep) (i : Nat) : String :=
  match ns[i]? with
  | some d => d.name
  | none => ""

/-- `ids[j]` (use sites are in range). -/
def idAt (ids : List Nat) (j : Nat) : Nat :=
  match ids[j]? with
  | some v => v
  | none => 0

/-- Lexicographic order on character lists: the `Ord`-comparison of the
string sort keys, written structurally so that it computes. -/
def charsLe : List Char → List Char → Bool
  | [], _ => true
  | _ :: _, [] => false
  | c :: cs, d :: ds => if c < d then true else if c = d then charsLe cs ds else false

/-- Lexicographic order on the string sort keys of `sort_by_key`. -/
def strLe (s t : String) : Bool := charsLe s.data t.data

/-- `show_version_on_duplicates`: node ids sorted by node name (stable, as
`sort_by_key` is). -/
def sortedIdsByName (ns : List ResolvedDep) : List Nat :=
  (sSort (fun a b => strLe a.2.name b.2.name) ns.enum).map Prod.fst

/-- Mark `force_write_ver` on nodes `ids[i]`, ..., `ids[j-1]`
(`.iter().take(j).skip(i)` in the source). -/
def markRun (ids : List Nat) (i j : Nat) (ns : List ResolvedDep) :
    List ResolvedDep :=
  ((ids.take j).drop i).foldl (fun acc id =>
    match acc[id]? with
    | some d => acc.set id { d with force_write_ver := true }
    | none => acc) ns

/-- The inner loop of `show_version_on_duplicates`: the first `j` in the
given index list at which the break condition
`j >= ids.len() || nodes[ids[j]].name != nameI` fires. -/
def findBreak (ns : List ResolvedDep) (ids : List Nat) (nameI : String) :
    List Nat → Option Nat
  | [] => none
  | j :: rest =>
    if j ≥ ids.length ∨ nameAt ns (idAt ids j) ≠ nameI then some j
    else findBreak ns ids nameI rest

/-- `DepGraph::show_version_on_duplicates`.  The inner iterator is
`.enumerate().take(len + 1).skip(i + 1)`; `take` cannot lengthen an iterator
that only has `len` items, so the scanned indices are exactly
`i+1, ..., len-1` — modelled by `(List.range ids.length).drop (i + 1)`. -/
def DepGraph.show_version_on_duplicates (g : DepGraph) : DepGraph :=
  let ids := sortedIdsByName g.nodes
  { g with nodes :=
      (List.range (ids.length - 1)).foldl (fun acc i =>
        match findBreak acc ids (nameAt acc (idAt ids i))
            ((List.range ids.length).drop (i + 1)) with
        | some j => if j ≥ i + 2 then markRun ids i j acc else acc
        | none => acc) g.nodes }

/-- `DepGraph::find`: index of the first node with the given name and
version. -/
def findFrom (ns : List ResolvedDep) (name ver : String) : Option Nat :=
  match ns with
  | [] => none
  | d :: rest =>
    if d.name == name && d.ver == ver then some 0
    else (findFrom rest name ver).map (· + 1)

/-- `DepGraph::find`. -/
def DepGraph.find (g : DepGraph) (name ver : String) : Option Nat :=
  findFrom g.nodes name ver

/-- `DepGraph::find_or_add`: the returned id of a pushed node is
`nodes.len() - 1` after the push, i.e. the length before it. -/
def DepGraph.find_or_add (g : DepGraph) (name ver : String) : Nat × DepGraph :=
  match g.find name ver with
  | some i => (i, g)
  | none =>
    (g.nodes.length, { g with nodes := g.nodes ++ [ResolvedDep.new name ver] })

/-- The endpoint rewrite of `set_root`: `0` becomes `root_id`, `root_id`
becomes `0`, anything else is unchanged. -/
def swapIdx (root_id x : Nat) : Nat :=
  if x = 0 then root_id else if x = root_id then 0 else x

/-- `Vec::swap(0, root_id)` on the node list (use sites are in range). -/
def listSwap (ns : List ResolvedDep) (i j : Nat) : List ResolvedDep :=
  match ns[i]?, ns[j]? with
  | some a, some b => (ns.set i b).set j a
  | _, _ => ns

/-- `DepGraph::set_root`. -/
def DepGraph.set_root (g : DepGraph) (name ver : String) : Bool × DepGraph :=
  match g.find name ver with
  | none => (false, g)
  | some root_id =>
    if root_id = 0 then (true, g)
    else
      (true, { g with
        nodes := listSwap g.nodes 0 root_id,
        edges := g.edges.map (fun e => (swapIdx root_id e.1, swapIdx root_id e.2)) })

/-- The `used` vector of one `remove_orphans` iteration: `used[0] = true`,
then `used[idr] = true` for every edge target. -/
def markUsed (es : List Edge) (len : Nat) : List Bool :=
  es.foldl (fun used e => used.set e.2 true) ((List.replicate len false).set 0 true)

/-- Index of the first `false` entry (`for (id, &u) in used.iter().enumerate()
{ if !u { ... break } }`). -/
def firstFalseIdx : List Bool → Option Nat
  | [] => none
  | b :: rest => if b then (firstFalseIdx rest).map (· + 1) else some 0

/-- `if edge.0 > id { edge.0 -= 1 }`. -/
def shiftDown (removed x : Nat) : Nat :=
  if removed < x then x - 1 else x

/-- The `loop` of `remove_orphans`: find an unused node, remove it, drop its
outgoing edges, renumber, repeat.  The guard `id < ns.length` always holds
(the id comes from enumerating the `used` vector, whose length is
`ns.length`); it carries the bound needed for the removal. -/
def orphanLoop (ns : List ResolvedDep) (es : List Edge) :
    List ResolvedDep × List Edge :=
  match firstFalseIdx (markUsed es ns.length) with
  | none => (ns, es)
  | some id =>
    if h : id < ns.length then
      orphanLoop (ns.eraseIdx id)
        ((es.filter (fun e => e.1 != id)).map
          (fun e => (shiftDown id e.1, shiftDown id e.2)))
    else (ns, es)
termination_by ns.length
decreasing_by
  rw [List.length_eraseIdx]
  simp only [h, if_true]
  omega

/-- `DepGraph::remove_orphans`: drop out-of-range edges, then prune unused
nodes.  `none` models the `used[0] = true` index panic on an empty node
list. -/
def DepGraph.remove_orphans (g : DepGraph) : Option DepGraph :=
  if g.nodes.isEmpty then none
  else
    let es := g.edges.filter (edgeInRange g.nodes.length)
    let p := orphanLoop g.nodes es
    some { g with nodes := p.1, edges := p.2 }

/-- The first edge index with equal endpoints (the scan-and-mark first half
of a `remove_self_pointing` iteration). -/
def firstSelfIdx : List Edge → Option Nat
  | [] => none
  | e :: rest => if e.1 = e.2 then some 0 else (firstSelfIdx rest).map (· + 1)

/-- The `loop` of `remove_self_pointing`: remove the first self-pointing
edge, restart, until none is found.  The guard `i < es.length` always holds
(the index comes from enumerating `es`). -/
def selfLoopRemove (es : List Edge) : List Edge :=
  match firstSelfIdx es with
  | none => es
  | some i =>
    if h : i < es.length then selfLoopRemove (es.eraseIdx i) else es
termination_by es.length
decreasing_by
  rw [List.length_eraseIdx]
  simp only [h, if_true]
  omega

/-- `DepGraph::remove_self_pointing`. -/
def DepGraph.remove_self_pointing (g : DepGraph) : DepGraph :=
  { g with edges := selfLoopRemove g.edges }

/-- The dashed edge line for a non-regular kind (the colors of the source's
match table). -/
def dashedColor (k : DepKind) : String :=
  match k with
  | .Build => " [color=purple, style=dashed];"
  | .Dev => " [color=blue, style=dashed];"
  | .Optional => " [color=red, style=dashed];"
  | _ => " [color=orange, style=dashed];"

/-- The edge line the claim describes: plain when both endpoints are Regular,
otherwise dashed and colored by the most specific non-regular kind among the
two endpoints under the precedence Build > Dev > Optional > Unknown. -/
def specLine (p c : DepKind) : String :=
  if p = .Regular ∧ c = .Regular then ";"
  else if p = .Build ∨ c = .Build then dashedColor .Build
  else if p = .Dev ∨ c = .Dev then dashedColor .Dev
  else if p = .Optional ∨ c = .Optional then dashedColor .Optional
  else dashedColor .Unknown

/-- The edge line the code actually implements: plain when both endpoints are
Regular; otherwise dashed, colored by the parent's kind when the parent is
non-regular and by the child's kind only when the parent is Regular. -/
def amendedLine (p c : DepKind) : String :=
  if p = .Regular then (if c = .Regular then ";" else dashedColor c)
  else dashedColor p

/-- Pointwise growth order on nodes: the identity fields are unchanged and
the four kind flags only go from false to true. -/
def depLe (a b : ResolvedDep) : Prop :=
  a.name = b.name ∧ a.ver = b.ver ∧ a.force_write_ver = b.force_write_ver ∧
  (a.is_regular = true → b.is_regular = true) ∧
  (a.is_build = true → b.is_build = true) ∧
  (a.is_dev = true → b.is_dev = true) ∧
  (a.is_optional = true → b.is_optional = true)

/-- Pointwise growth order on node lists. -/
def nsLe (ns ns' : List ResolvedDep) : Prop :=
  ns.length = ns'.length ∧
  ∀ (i : Nat) (a b : ResolvedDep), ns[i]? = some a → ns'[i]? = some b → depLe a b

/-- The union of kinds over all dependency paths reaching a node from the
root (spec, section 4.3): the root is regular by definition; an edge from
node 0 contributes the kinds the declared-deps map lists for the target's
name; any other edge propagates the kinds of its source. -/
inductive Derives (m : DeclaredDepsMap) (es : List Edge)
    (ns : List ResolvedDep) : Nat → DepKind → Prop where
  | root : Derives m es ns 0 .Regular
  | decl {t : Nat} {d : ResolvedDep} {ks : List DepKind} {k : DepKind} :
      (0, t) ∈ es → ns[t]? = some d → lookupKinds m d.name = some ks →
      k ∈ ks → k ≠ .Unknown → Derives m es ns t k
  | step {s t : Nat} {k : DepKind} :
      (s, t) ∈ es → s ≠ 0 → Derives m es ns s k → Derives m es ns t k

/-- `Derives` graded by the length of the dependency chain: a fact at level
`n` is reached from the root by at most `n` hops.  "Longest dependency chain
from the root under 10 hops" is `Derives → DerivesN 10`. -/
inductive DerivesN (m : DeclaredDepsMap) (es : List Edge)
    (ns : List ResolvedDep) : Nat → Nat → DepKind → Prop where
  | root {n : Nat} : DerivesN m es ns n 0 .Regular
  | decl {n t : Nat} {d : ResolvedDep} {ks : List DepKind} {k : DepKind} :
      (0, t) ∈ es → ns[t]? = some d → lookupKinds m d.name = some ks →
      k ∈ ks → k ≠ .Unknown → DerivesN m es ns (n + 1) t k
  | step {n s t : Nat} {k : DepKind} :
      (s, t) ∈ es → s ≠ 0 → DerivesN m es ns n s k →
      DerivesN m es ns (n + 1) t k

/-- Two nodes named "foo" at versions "1.0" and "2.0": the input of the
duplicate-version scenario of the spec (section 8). -/
def exDup : DepGraph :=
  ⟨[ResolvedDep.new "foo" "1.0", ResolvedDep.new "foo" "2.0"], [], testConfig⟩

/-- A one-node graph with an edge whose target id 5 is out of range. -/
def exOob : DepGraph :=
  ⟨[ResolvedDep.new "app" "1.0"], [(0, 5)], testConfig⟩

/-- The empty graph. -/
def exEmpty : DepGraph := ⟨[], [], testConfig⟩

/-- A node reached only along dev paths. -/
def exDev : ResolvedDep := { ResolvedDep.new "d" "1.0" with is_dev := true }

/-- A node reached only along build paths. -/
def exBuild : ResolvedDep := { ResolvedDep.new "b" "1.0" with is_build := true }

/-- Root, a dev-kind node and a build-kind node, with the edge dev → build:
the edge the coloring claim and the code disagree on. -/
def exLabel : DepGraph :=
  ⟨[ResolvedDep.new "app" "1.0", exDev, exBuild], [(1, 2)], testConfig⟩

/-- Two nodes with a self-pointing edge on node 1. -/
def exSelf : DepGraph :=
  ⟨[ResolvedDep.new "a" "1", ResolvedDep.new "b" "2"], [(0, 1), (1, 1)], testConfig⟩

/-- Two nodes, the root at index 1: input for the root-swap example. -/
def exSwap : DepGraph :=
  ⟨[ResolvedDep.new "a" "1", ResolvedDep.new "b" "2"], [(0, 1)], testConfig⟩

/-- A single root node with no edges. -/
def exSingle : DepGraph := ⟨[ResolvedDep.new "app" "1.0"], [], testConfig⟩

/-- A second single-node graph, with an out-of-range edge. -/
def exOrphanOob : DepGraph :=
  ⟨[ResolvedDep.new "r" "1"], [(0, 5)], testConfig⟩

/-- Root plus an orphan node (no edge targets node 1). -/
def exOrphan : DepGraph :=
  ⟨[ResolvedDep.new "r" "1", ResolvedDep.new "x" "1"], [], testConfig⟩

/-! ## Basic lemmas about the embedded helpers -/

theorem mem_sInsert {α : Type} (le : α → α → Bool) (x a : α) (l : List α) :
    a ∈ sInsert le x l ↔ a = x ∨ a ∈ l := by
  induction l with
  | nil => simp [sInsert]
  | cons y ys ih =>
    simp only [sInsert]
    split
    · simp [List.mem_cons]
    · simp only [List.mem_cons, ih]
      tauto

theorem mem_sSort {α : Type} (le : α → α → Bool) (a : α) (l : List α) :
    a ∈ sSort le l ↔ a ∈ l := by
  induction l with
  | nil => simp [sSort]
  | cons x xs ih => simp [sSort, mem_sInsert, ih]

theorem findFrom_eq_none (ns : List ResolvedDep) (n v : String) :
    findFrom ns n v = none ↔ ∀ d ∈ ns, ¬(d.name = n ∧ d.ver = v) := by
  induction ns with
  | nil => simp [findFrom]
  | cons d rest ih =>
    simp only [findFrom]
    by_cases hc : (d.name == n && d.ver == v) = true
    · rw [if_pos hc]
      simp only [Bool.and_eq_true, beq_iff_eq] at hc
      simp only [List.mem_cons]
      constructor
      · intro h
        exact absurd h (by simp)
      · intro h
        exact absurd hc (h d (Or.inl rfl))
    · have hc' : ¬(d.name = n ∧ d.ver = v) := by
        simpa [Bool.and_eq_true, beq_iff_eq] using hc
      rw [if_neg hc]
      simp only [Option.map_eq_none', ih, List.mem_cons]
      constructor
      · rintro h d' (rfl | hd')
        · exact hc'
        · exact h d' hd'
      · intro h d' hd'
        exact h d' (Or.inr hd')

theorem findFrom_eq_some (ns : List ResolvedDep) (n v : String) (i : Nat)
    (h : findFrom ns n v = some i) :
    ∃ d, ns[i]? = some d ∧ d.name = n ∧ d.ver = v := by
  induction ns generalizing i with
  | nil => simp [findFrom] at h
  | cons d rest ih =>
    simp only [findFrom] at h
    split at h
    · rename_i hc
      simp only [Bool.and_eq_true, beq_iff_eq] at hc
      cases h
      exact ⟨d, by simp, hc.1, hc.2⟩
    · rcases Option.map_eq_some'.mp h with ⟨j, hj, rfl⟩
      rcases ih j hj with ⟨d', hd', hmatch⟩
      exact ⟨d', by simpa using hd', hmatch⟩

theorem findFrom_append_new (ns : List ResolvedDep) (n v : String)
    (h : findFrom ns n v = none) :
    findFrom (ns ++ [ResolvedDep.new n v]) n v = some ns.length := by
  induction ns with
  | nil => simp [findFrom, ResolvedDep.new]
  | cons d rest ih =>
    simp only [findFrom] at h
    by_cases hc : (d.name == n && d.ver == v) = true
    · rw [if_pos hc] at h
      exact absurd h (by simp)
    · rw [if_neg hc] at h
      have h' : findFrom rest n v = none := by
        simpa [Option.map_eq_none'] using h
      show findFrom (d :: (rest ++ [ResolvedDep.new n v])) n v = _
      simp only [findFrom]
      rw [if_neg hc, ih h']
      simp

/-! ## C10: idempotence of find_or_add -/

theorem find_after_find_or_add (g : DepGraph) (n v : String) :
    (g.find_or_add n v).2.find n v = some (g.find_or_add n v).1 := by
  unfold DepGraph.find_or_add
  cases hf : g.find n v with
  | some i => simpa [DepGraph.find] using hf
  | none =>
    simp only [DepGraph.find] at hf ⊢
    simp [findFrom_append_new g.nodes n v hf]

/-- C10: for every graph and every (name, version) pair, calling
`find_or_add` a second time with the same arguments returns the same id as
the first call and leaves the node count unchanged. -/
theorem find_or_add_idempotent (g : DepGraph) (name ver : String) :
    ((g.find_or_add name ver).2.find_or_add name ver).1 =
      (g.find_or_add name ver).1 ∧
    ((g.find_or_add name ver).2.find_or_add name ver).2.nodes.length =
      (g.find_or_add name ver).2.nodes.length := by
  have h := find_after_find_or_add g name ver
  constructor
  · rw [DepGraph.find_or_add, h]
  · rw [DepGraph.find_or_add, h]

/-! ## C2: duplicate-version flagging -/

/-- C2: on two nodes that share the name "foo" and differ in version, the
claim requires `force_write_ver = true` on both after
`show_version_on_duplicates`; the code leaves both flags false.  The inner
scan iterates `.take(len + 1)` over an iterator that only has `len` items,
so the "one more time after the last node" the comment asks for never
happens and the name run that ends at the last sorted position is never
marked. -/
theorem show_version_on_duplicates_misses_final_run :
    exDup.nodes.map (fun d => d.name) = ["foo", "foo"] ∧
    exDup.nodes.map (fun d => d.ver) = ["1.0", "2.0"] ∧
    (exDup.show_version_on_duplicates).nodes.map (fun d => d.force_write_ver) =
      [false, false] := by
  refine ⟨rfl, rfl, ?_⟩
  rfl

/-! ## C1: the edge color/style table -/

theorem edgeLineFor_eq_amended (p c : DepKind) :
    edgeLineFor p c = amendedLine p c := by
  cases p <;> cases c <;> rfl

/-- C1 counterexample: on the edge from a Dev-kind parent to a Build-kind
child the code emits the Dev color (blue) — the parent's kind wins — while
the claim's "most specific non-regular kind among the two endpoints under
Build > Dev > Optional > Unknown" picks Build (purple). -/
theorem edge_label_spec_counterexample :
    (exLabel.get 1).map ResolvedDep.kind = some DepKind.Dev ∧
    (exLabel.get 2).map ResolvedDep.kind = some DepKind.Build ∧
    Edge.label (1, 2) exLabel [] = some (dashedColor DepKind.Dev) ∧
    specLine DepKind.Dev DepKind.Build = dashedColor DepKind.Build ∧
    Edge.label (1, 2) exLabel [] ≠ some (specLine DepKind.Dev DepKind.Build) := by
  refine ⟨rfl, rfl, rfl, rfl, ?_⟩
  decide

/-- C1 (amended): a rendered edge is plain iff the parent's kind and the
effective child kind are both Regular; otherwise it is dashed, colored by
the parent's kind when the parent is non-regular and by the child's kind
when the parent is Regular.  For an edge whose source is node 0 the
effective child kind is looked up in the declared-deps map by the child's
name (Regular, else Build, else Dev, else Optional, else Unknown); for any
other edge it is the child's propagated kind. -/
theorem edge_label_amended (e : Edge) (dg : DepGraph) (m : DeclaredDepsMap)
    (pd cd : ResolvedDep) (ck : DepKind)
    (h1 : dg.get e.1 = some pd) (h2 : dg.get e.2 = some cd)
    (h3 : e.1 = 0 → ∃ ks, lookupKinds m cd.name = some ks ∧ ck = rootChildKind ks)
    (h4 : e.1 ≠ 0 → ck = cd.kind) :
    Edge.label e dg m = some (amendedLine pd.kind ck) := by
  unfold Edge.label
  rw [h1, h2]
  by_cases h0 : e.1 = 0
  · obtain ⟨ks, hks, hck⟩ := h3 h0
    simp [h0, hks, hck, edgeLineFor_eq_amended]
  · simp [h0, h4 h0, edgeLineFor_eq_amended]

theorem edge_label_amended_witness :
    Edge.label (1, 2) exLabel [] = some (amendedLine DepKind.Dev DepKind.Build) :=
  edge_label_amended (1, 2) exLabel [] exDev exBuild DepKind.Build rfl rfl
    (fun h => absurd h (by decide)) (fun _ => rfl)

/-! ## C8: self-loop removal is a single filter -/

theorem firstSelfIdx_none_filter (es : List Edge) (h : firstSelfIdx es = none) :
    es.filter (fun e => e.1 != e.2) = es := by
  induction es with
  | nil => rfl
  | cons e rest ih =>
    simp only [firstSelfIdx] at h
    split at h
    · exact absurd h (by simp)
    · rename_i hne
      have h' : firstSelfIdx rest = none := by
        simpa [Option.map_eq_none'] using h
      simp only [List.filter_cons]
      rw [if_pos (by simpa using hne), ih h']

theorem firstSelfIdx_some_filter (es : List Edge) (i : Nat)
    (h : firstSelfIdx es = some i) :
    (es.eraseIdx i).filter (fun e => e.1 != e.2) =
      es.filter (fun e => e.1 != e.2) := by
  induction es generalizing i with
  | nil => simp [firstSelfIdx] at h
  | cons e rest ih =>
    simp only [firstSelfIdx] at h
    split at h
    · rename_i heq
      cases h
      simp only [List.eraseIdx_cons_zero, List.filter_cons]
      rw [if_neg (by simpa using heq)]
    · rename_i hne
      rcases Option.map_eq_some'.mp h with ⟨j, hj, rfl⟩
      simp only [List.eraseIdx_cons_succ, List.filter_cons]
      rw [ih j hj]

theorem firstSelfIdx_lt_length (es : List Edge) (i : Nat)
    (h : firstSelfIdx es = some i) : i < es.length := by
  induction es generalizing i with
  | nil => simp [firstSelfIdx] at h
  | cons e rest ih =>
    simp only [firstSelfIdx] at h
    split at h
    · cases h; simp
    · rcases Option.map_eq_some'.mp h with ⟨j, hj, rfl⟩
      have := ih j hj
      simp only [List.length_cons]
      omega

theorem selfLoopRemove_eq_filter (es : List Edge) :
    selfLoopRemove es = es.filter (fun e => e.1 != e.2) := by
  induction es using selfLoopRemove.induct with
  | case1 es hf =>
    rw [selfLoopRemove.eq_def, hf, firstSelfIdx_none_filter es hf]
  | case2 es i hf hlt ih =>
    rw [selfLoopRemove.eq_def, hf]
    dsimp only
    rw [dif_pos hlt, ih, firstSelfIdx_some_filter es i hf]
  | case3 es i hf hlt =>
    exact absurd (firstSelfIdx_lt_length es i hf) hlt

/-- C8: `remove_self_pointing` produces exactly the edge sequence of a
single filtering pass that drops every edge whose source equals its target,
leaves the node list unchanged, and afterwards no edge has equal source and
target. -/
theorem remove_self_pointing_eq_filter (g : DepGraph) :
    (g.remove_self_pointing).nodes = g.nodes ∧
    (g.remove_self_pointing).edges = g.edges.filter (fun e => e.1 != e.2) ∧
    ∀ e ∈ (g.remove_self_pointing).edges, e.1 ≠ e.2 := by
  refine ⟨rfl, selfLoopRemove_eq_filter g.edges, ?_⟩
  intro e he
  have : e ∈ g.edges.filter (fun e => e.1 != e.2) := by
    rwa [DepGraph.remove_self_pointing, selfLoopRemove_eq_filter] at he
  have := (List.mem_filter.mp this).2
  simpa using this

theorem remove_self_pointing_eq_filter_witness :
    exSelf.remove_self_pointing.edges =
      exSelf.edges.filter (fun e => e.1 != e.2) ∧
    ((0 : Nat), (1 : Nat)).1 ≠ ((0 : Nat), (1 : Nat)).2 := by
  refine ⟨(remove_self_pointing_eq_filter exSelf).2.1, ?_⟩
  apply (remove_self_pointing_eq_filter exSelf).2.2 (0, 1)
  rw [DepGraph.remove_self_pointing, selfLoopRemove_eq_filter]
  decide

/-! ## C5: root selection -/

theorem listSwap_length (ns : List ResolvedDep) (i j : Nat) :
    (listSwap ns i j).length = ns.length := by
  unfold listSwap
  split <;> simp [List.length_set]

theorem listSwap_getElem_fst (ns : List ResolvedDep) {i j : Nat}
    {a b : ResolvedDep} (hij : i ≠ j) (ha : ns[i]? = some a)
    (hb : ns[j]? = some b) : (listSwap ns i j)[i]? = some b := by
  unfold listSwap
  rw [ha, hb]
  rw [List.getElem?_set_ne (Ne.symm hij), List.getElem?_set_self', ha]
  rfl

theorem listSwap_getElem_snd (ns : List ResolvedDep) {i j : Nat}
    {a b : ResolvedDep} (hij : i ≠ j) (ha : ns[i]? = some a)
    (hb : ns[j]? = some b) : (listSwap ns i j)[j]? = some a := by
  unfold listSwap
  rw [ha, hb]
  rw [List.getElem?_set_self', List.getElem?_set_ne hij, hb]
  rfl

theorem listSwap_getElem_other (ns : List ResolvedDep) {i j k : Nat}
    (hki : k ≠ i) (hkj : k ≠ j) : (listSwap ns i j)[k]? = ns[k]? := by
  unfold listSwap
  split
  · rw [List.getElem?_set_ne (Ne.symm hkj), List.getElem?_set_ne (Ne.symm hki)]
  · rfl

theorem swapIdx_zero (x : Nat) : swapIdx 0 x = x := by
  unfold swapIdx
  by_cases h : x = 0 <;> simp [h]

/-- C5: `set_root(name, ver)` returns false iff no node matches
(name, ver); when it returns true there is a matched position `r` such that
the node lists of the result and the input are equal up to swapping
positions 0 and `r` (so node id 0 now holds the requested (name, version)),
and every edge endpoint equal to 0 is retargeted to `r`, every endpoint
equal to `r` is retargeted to 0, and every other endpoint is unchanged. -/
theorem set_root_spec (g : DepGraph) (name ver : String) :
    ((g.set_root name ver).1 = false ↔
      ∀ d ∈ g.nodes, ¬(d.name = name ∧ d.ver = ver)) ∧
    ((g.set_root name ver).1 = true →
      ∃ r, (∃ d, g.nodes[r]? = some d ∧ d.name = name ∧ d.ver = ver) ∧
        (g.set_root name ver).2.nodes.length = g.nodes.length ∧
        (g.set_root name ver).2.nodes[0]? = g.nodes[r]? ∧
        (g.set_root name ver).2.nodes[r]? = g.nodes[0]? ∧
        (∀ i, i ≠ 0 → i ≠ r → (g.set_root name ver).2.nodes[i]? = g.nodes[i]?) ∧
        (g.set_root name ver).2.edges.length = g.edges.length ∧
        (∀ j : Nat, (g.set_root name ver).2.edges[j]? =
          (g.edges[j]?).map (fun e : Edge => (swapIdx r e.1, swapIdx r e.2)))) := by
  cases hf : g.find name ver with
  | none =>
    have hsr : g.set_root name ver = (false, g) := by
      rw [DepGraph.set_root, hf]
    have hnone := (findFrom_eq_none g.nodes name ver).mp hf
    rw [hsr]
    constructor
    · simp only [true_iff]
      exact hnone
    · intro h
      exact absurd h (by simp)
  | some r =>
    rcases findFrom_eq_some g.nodes name ver r hf with ⟨d, hd, hdn, hdv⟩
    have hrlen : r < g.nodes.length := by
      rcases List.getElem?_eq_some_iff.mp hd with ⟨h, _⟩
      exact h
    have hmem : d ∈ g.nodes := List.getElem?_mem hd
    have hfalse : ¬∀ d' ∈ g.nodes, ¬(d'.name = name ∧ d'.ver = ver) :=
      fun h => absurd ⟨hdn, hdv⟩ (h d hmem)
    by_cases hr0 : r = 0
    · subst hr0
      have hsr : g.set_root name ver = (true, g) := by
        rw [DepGraph.set_root, hf]
        rfl
      rw [hsr]
      constructor
      · constructor
        · intro h
          exact absurd h (by simp)
        · intro h
          exact absurd h hfalse
      · intro _
        refine ⟨0, ⟨d, hd, hdn, hdv⟩, rfl, rfl, rfl, fun i _ _ => rfl, rfl,
          fun j => ?_⟩
        cases hj : g.edges[j]? with
        | none => rfl
        | some e => simp [swapIdx_zero]
    · have hsr : g.set_root name ver = (true, { g with
          nodes := listSwap g.nodes 0 r,
          edges := g.edges.map (fun e => (swapIdx r e.1, swapIdx r e.2)) }) := by
        rw [DepGraph.set_root, hf]
        dsimp only
        rw [if_neg hr0]
      have h0lt : 0 < g.nodes.length := Nat.lt_of_le_of_lt (Nat.zero_le r) hrlen
      have hd0 : g.nodes[0]? = some (g.nodes.get ⟨0, h0lt⟩) := List.getElem?_eq_getElem h0lt
      have h0r : (0 : Nat) ≠ r := fun h => hr0 h.symm
      rw [hsr]
      constructor
      · constructor
        · intro h
          exact absurd h (by simp)
        · intro h
          exact absurd h hfalse
      · intro _
        refine ⟨r, ⟨d, hd, hdn, hdv⟩, listSwap_length g.nodes 0 r,
          (by rw [hd]; exact listSwap_getElem_fst g.nodes h0r hd0 hd),
          (by rw [hd0]; exact listSwap_getElem_snd g.nodes h0r hd0 hd),
          fun i hi0 hir => listSwap_getElem_other g.nodes hi0 hir,
          List.length_map g.edges _,
          fun j => List.getElem?_map _ g.edges j⟩

theorem set_root_spec_witness :
    (exSwap.set_root "b" "2").1 = true ∧
    ∃ r, (∃ d, exSwap.nodes[r]? = some d ∧ d.name = "b" ∧ d.ver = "2") ∧
      (exSwap.set_root "b" "2").2.nodes.length = exSwap.nodes.length ∧
      (exSwap.set_root "b" "2").2.nodes[0]? = exSwap.nodes[r]? ∧
      (exSwap.set_root "b" "2").2.nodes[r]? = exSwap.nodes[0]? ∧
      (∀ i, i ≠ 0 → i ≠ r →
        (exSwap.set_root "b" "2").2.nodes[i]? = exSwap.nodes[i]?) ∧
      (exSwap.set_root "b" "2").2.edges.length = exSwap.edges.length ∧
      (∀ j : Nat, (exSwap.set_root "b" "2").2.edges[j]? =
        (exSwap.edges[j]?).map (fun e : Edge => (swapIdx r e.1, swapIdx r e.2))) :=
  ⟨by decide, (set_root_spec exSwap "b" "2").2 (by decide)⟩

/-! ## The orphan-pruning loop -/

theorem foldl_markUsed_length (es : List Edge) (acc : List Bool) :
    (es.foldl (fun u e => u.set e.2 true) acc).length = acc.length := by
  induction es generalizing acc with
  | nil => rfl
  | cons e rest ih => simp [List.foldl_cons, ih, List.length_set]

theorem foldl_markUsed_true_iff (es : List Edge) (acc : List Bool) (i : Nat)
    (hi : i < acc.length) :
    (es.foldl (fun u e => u.set e.2 true) acc)[i]? = some true ↔
      acc[i]? = some true ∨ ∃ e ∈ es, e.2 = i := by
  induction es generalizing acc with
  | nil => simp
  | cons e rest ih =>
    rw [List.foldl_cons, ih (acc.set e.2 true) (by simp [List.length_set, hi])]
    by_cases he : e.2 = i
    · constructor
      · intro _
        exact Or.inr ⟨e, List.mem_cons_self e rest, he⟩
      · intro _
        exact Or.inl (by simp [List.getElem?_set, he, hi])
    · rw [List.getElem?_set_ne he]
      constructor
      · rintro (h | ⟨e', he', h2⟩)
        · exact Or.inl h
        · exact Or.inr ⟨e', List.mem_cons_of_mem e he', h2⟩
      · rintro (h | ⟨e', he', h2⟩)
        · exact Or.inl h
        · rcases List.mem_cons.mp he' with rfl | hmem
          · exact absurd h2 he
          · exact Or.inr ⟨e', hmem, h2⟩

theorem markUsed_length (es : List Edge) (len : Nat) :
    (markUsed es len).length = len := by
  unfold markUsed
  rw [foldl_markUsed_length]
  simp [List.length_set, List.length_replicate]

theorem markUsed_true_iff (es : List Edge) (len : Nat) (i : Nat) (hi : i < len) :
    (markUsed es len)[i]? = some true ↔ i = 0 ∨ ∃ e ∈ es, e.2 = i := by
  unfold markUsed
  rw [foldl_markUsed_true_iff _ _ i (by simp [List.length_set, hi])]
  by_cases h0 : i = 0
  · subst h0
    simp [List.getElem?_set, hi]
  · rw [List.getElem?_set_ne (fun h => h0 h.symm)]
    simp [List.getElem?_replicate, hi, h0]

theorem firstFalseIdx_some (bs : List Bool) (i : Nat)
    (h : firstFalseIdx bs = some i) : i < bs.length ∧ bs[i]? = some false := by
  induction bs generalizing i with
  | nil => simp [firstFalseIdx] at h
  | cons b rest ih =>
    simp only [firstFalseIdx] at h
    split at h
    · rcases Option.map_eq_some'.mp h with ⟨j, hj, rfl⟩
      rcases ih j hj with ⟨hlt, hget⟩
      refine ⟨by simpa using Nat.succ_lt_succ hlt, by simpa using hget⟩
    · rename_i hb
      cases h
      refine ⟨by simp, ?_⟩
      simp only [Bool.not_eq_true] at hb
      simp [hb]

theorem firstFalseIdx_none (bs : List Bool) (h : firstFalseIdx bs = none) :
    ∀ i, i < bs.length → bs[i]? = some true := by
  induction bs with
  | nil => intro i hi; simp at hi
  | cons b rest ih =>
    simp only [firstFalseIdx] at h
    split at h
    · rename_i hb
      have h' : firstFalseIdx rest = none := by
        simpa [Option.map_eq_none'] using h
      intro i hi
      cases i with
      | zero => simp [hb]
      | succ j =>
        have : j < rest.length := by simpa using hi
        simpa using ih h' j this
    · exact absurd h (by simp)

theorem orphanLoop_spec (ns : List ResolvedDep) (es : List Edge) :
    (∀ e ∈ es, e.1 < ns.length ∧ e.2 < ns.length) → ns ≠ [] →
      ((orphanLoop ns es).1[0]? = ns[0]? ∧
       (orphanLoop ns es).1 ≠ [] ∧
       (∀ e ∈ (orphanLoop ns es).2,
         e.1 < (orphanLoop ns es).1.length ∧ e.2 < (orphanLoop ns es).1.length) ∧
       (∀ i, 0 < i → i < (orphanLoop ns es).1.length →
         ∃ e ∈ (orphanLoop ns es).2, e.2 = i)) := by
  induction ns, es using orphanLoop.induct with
  | case1 ns es hf =>
    intro hrange hne
    have heq : orphanLoop ns es = (ns, es) := by
      rw [orphanLoop.eq_def, hf]
    rw [heq]
    refine ⟨rfl, hne, hrange, ?_⟩
    intro i hi0 hilen
    have hbound : i < (markUsed es ns.length).length := by
      rw [markUsed_length]; exact hilen
    have htrue := firstFalseIdx_none _ hf i hbound
    rcases (markUsed_true_iff es ns.length i hilen).mp htrue with h0 | hex
    · omega
    · exact hex
  | case2 ns es id hf hlt ih =>
    intro hrange hne
    have hfalse := (firstFalseIdx_some _ id hf).2
    have hnot : ¬(id = 0 ∨ ∃ e ∈ es, e.2 = id) := by
      intro hcon
      have := (markUsed_true_iff es ns.length id hlt).mpr hcon
      rw [this] at hfalse
      exact absurd hfalse (by simp)
    push_neg at hnot
    have hid0 : id ≠ 0 := hnot.1
    have hnotarget : ∀ e ∈ es, ¬(e.2 = id) := hnot.2
    have hlen' : (ns.eraseIdx id).length = ns.length - 1 := by
      rw [List.length_eraseIdx]
      simp [hlt]
    have hrange' : ∀ e ∈ (es.filter (fun e => e.1 != id)).map
        (fun e => (shiftDown id e.1, shiftDown id e.2)),
        e.1 < (ns.eraseIdx id).length ∧ e.2 < (ns.eraseIdx id).length := by
      intro e' he'
      rcases List.mem_map.mp he' with ⟨e, hef, rfl⟩
      have hmf := List.mem_filter.mp hef
      have h1 : e.1 ≠ id := by simpa using hmf.2
      have h2 : e.2 ≠ id := hnotarget e hmf.1
      have hb := hrange e hmf.1
      rcases hb with ⟨hb1, hb2⟩
      constructor
      · show shiftDown id e.1 < (ns.eraseIdx id).length
        rw [hlen']
        unfold shiftDown
        split <;> omega
      · show shiftDown id e.2 < (ns.eraseIdx id).length
        rw [hlen']
        unfold shiftDown
        split <;> omega
    have hne' : ns.eraseIdx id ≠ [] := by
      rw [← List.length_pos, hlen']
      omega
    have heq : orphanLoop ns es = orphanLoop (ns.eraseIdx id)
        ((es.filter (fun e => e.1 != id)).map
          (fun e => (shiftDown id e.1, shiftDown id e.2))) := by
      rw [orphanLoop.eq_def, hf]
      dsimp only
      rw [dif_pos hlt]
    rcases ih hrange' hne' with ⟨ha, hb', hc, hd⟩
    rw [heq]
    refine ⟨?_, hb', hc, hd⟩
    rw [ha, List.getElem?_eraseIdx]
    simp [Nat.pos_of_ne_zero hid0]
  | case3 ns es id hf hnlt =>
    intro hrange hne
    have := (firstFalseIdx_some _ id hf).1
    rw [markUsed_length] at this
    exact absurd this hnlt

/-- C3 counterexample: the claim includes kind propagation among the passes
that do not panic on an out-of-range edge, but for an edge leaving the root
`set_resolved_kind` indexes `nodes[ed.1]` unconditionally (to read the name
for the map lookup), so on the one-node graph with the root-sourced edge
(0, 5) it panics (modelled by `none`). -/
theorem set_resolved_kind_oob_panics : exOob.set_resolved_kind [] = none := by
  rfl


/-- C6 counterexample: on the empty graph `remove_orphans` does not return:
`used[0] = true` indexes a zero-length vector and panics (modelled by
`none`), so "terminates (returns) on every graph" fails there. -/
theorem remove_orphans_empty_panics : exEmpty.remove_orphans = none := by
  rfl

/-- C6 (amended): on every graph with at least one node `remove_orphans`
returns; afterwards every remaining node other than the node at id 0 is the
target of at least one edge, and the node at id 0 is never removed
regardless of whether any edge targets it. -/
theorem remove_orphans_no_orphans (g : DepGraph) (hne : g.nodes ≠ []) :
    ∃ g', g.remove_orphans = some g' ∧
      g'.nodes[0]? = g.nodes[0]? ∧ g'.nodes ≠ [] ∧
      (∀ i, 0 < i → i < g'.nodes.length → ∃ e ∈ g'.edges, e.2 = i) := by
  have hiso : ¬g.nodes.isEmpty = true := by simp [List.isEmpty_iff, hne]
  have hrange : ∀ e ∈ g.edges.filter (edgeInRange g.nodes.length),
      e.1 < g.nodes.length ∧ e.2 < g.nodes.length := by
    intro e he
    have h2 := (List.mem_filter.mp he).2
    unfold edgeInRange at h2
    simpa [Bool.and_eq_true] using h2
  rcases orphanLoop_spec g.nodes (g.edges.filter (edgeInRange g.nodes.length))
    hrange hne with ⟨ha, hb, _, hd⟩
  refine ⟨{ g with
      nodes := (orphanLoop g.nodes (g.edges.filter (edgeInRange g.nodes.length))).1,
      edges := (orphanLoop g.nodes (g.edges.filter (edgeInRange g.nodes.length))).2 },
    ?_, ha, hb, hd⟩
  rw [DepGraph.remove_orphans, if_neg hiso]

theorem remove_orphans_no_orphans_witness :
    ∃ g', exOrphan.remove_orphans = some g' ∧
      g'.nodes[0]? = exOrphan.nodes[0]? ∧ g'.nodes ≠ [] ∧
      (∀ i, 0 < i → i < g'.nodes.length → ∃ e ∈ g'.edges, e.2 = i) :=
  remove_orphans_no_orphans exOrphan (by decide)

/-! ## Monotonicity of kind propagation -/

theorem depLe_refl (a : ResolvedDep) : depLe a a :=
  ⟨rfl, rfl, rfl, fun h => h, fun h => h, fun h => h, fun h => h⟩

theorem depLe_trans {a b c : ResolvedDep} (h1 : depLe a b) (h2 : depLe b c) :
    depLe a c := by
  rcases h1 with ⟨n1, v1, f1, r1, b1, d1, o1⟩
  rcases h2 with ⟨n2, v2, f2, r2, b2, d2, o2⟩
  exact ⟨n1.trans n2, v1.trans v2, f1.trans f2, fun h => r2 (r1 h),
    fun h => b2 (b1 h), fun h => d2 (d1 h), fun h => o2 (o1 h)⟩

theorem nsLe_refl (ns : List ResolvedDep) : nsLe ns ns := by
  refine ⟨rfl, fun i a b ha hb => ?_⟩
  rw [ha] at hb
  cases hb
  exact depLe_refl a

theorem nsLe_trans {x y z : List ResolvedDep} (h1 : nsLe x y) (h2 : nsLe y z) :
    nsLe x z := by
  refine ⟨h1.1.trans h2.1, fun i a c ha hc => ?_⟩
  have hi : i < y.length := by
    rw [← h1.1]
    rcases List.getElem?_eq_some_iff.mp ha with ⟨h, _⟩
    exact h
  have hb : y[i]? = some y[i] := List.getElem?_eq_getElem hi
  exact depLe_trans (h1.2 i a _ ha hb) (h2.2 i _ c hb hc)

theorem nsLe_set (ns : List ResolvedDep) (i : Nat) {a b : ResolvedDep}
    (ha : ns[i]? = some a) (hab : depLe a b) : nsLe ns (ns.set i b) := by
  refine ⟨(List.length_set ns i b).symm, fun j x y hx hy => ?_⟩
  by_cases hij : i = j
  · subst hij
    rw [List.getElem?_set_self', ha] at hy
    rw [ha] at hx
    cases hx
    cases hy
    exact hab
  · rw [List.getElem?_set_ne hij] at hy
    rw [hx] at hy
    cases hy
    exact depLe_refl x

theorem setFlag_le (d : ResolvedDep) (k : DepKind) : depLe d (setFlag d k) := by
  cases k <;>
    exact ⟨rfl, rfl, rfl, fun h => by simp [setFlag, h],
      fun h => by simp [setFlag, h], fun h => by simp [setFlag, h],
      fun h => by simp [setFlag, h]⟩

theorem foldl_setFlag_le (ks : List DepKind) (d : ResolvedDep) :
    depLe d (ks.foldl setFlag d) := by
  induction ks generalizing d with
  | nil => exact depLe_refl d
  | cons k ks ih => exact depLe_trans (setFlag_le d k) (ih (setFlag d k))

theorem copyFlags_le (src dst : ResolvedDep) : depLe dst (copyFlags src dst) :=
  ⟨rfl, rfl, rfl, fun h => by simp [copyFlags, h], fun h => by simp [copyFlags, h],
   fun h => by simp [copyFlags, h], fun h => by simp [copyFlags, h]⟩

theorem stepEdge_nsLe (m : DeclaredDepsMap) (ns : List ResolvedDep) (e : Edge) :
    nsLe ns (stepEdge m ns e) := by
  unfold stepEdge
  split
  · cases hc : ns[e.2]? with
    | none => exact nsLe_refl ns
    | some child =>
      dsimp only
      cases hl : lookupKinds m child.name with
      | none => exact nsLe_refl ns
      | some kinds =>
        dsimp only
        exact nsLe_set ns e.2 hc (foldl_setFlag_le kinds child)
  · cases hc1 : ns[e.1]? with
    | none =>
      cases hc2 : ns[e.2]? <;> exact nsLe_refl ns
    | some src =>
      cases hc2 : ns[e.2]? with
      | none => exact nsLe_refl ns
      | some dst =>
        dsimp only
        exact nsLe_set ns e.2 hc2 (copyFlags_le src dst)

theorem onePass_nsLe (m : DeclaredDepsMap) (es : List Edge) (ns : List ResolvedDep) :
    nsLe ns (onePass m es ns) := by
  induction es generalizing ns with
  | nil => exact nsLe_refl ns
  | cons e rest ih =>
    exact nsLe_trans (stepEdge_nsLe m ns e) (ih (stepEdge m ns e))

theorem iterate_onePass_le (m : DeclaredDepsMap) (es : List Edge) (d : Nat)
    (x : List ResolvedDep) : nsLe x ((onePass m es)^[d] x) := by
  induction d generalizing x with
  | zero => exact nsLe_refl x
  | succ d ih =>
    rw [Function.iterate_succ_apply]
    exact nsLe_trans (onePass_nsLe m es x) (ih (onePass m es x))

theorem runPasses_nsLe (m : DeclaredDepsMap) (es : List Edge) (p q : Nat)
    (ns : List ResolvedDep) (h : p ≤ q) :
    nsLe (runPasses m es p ns) (runPasses m es q ns) := by
  obtain ⟨d, rfl⟩ := Nat.exists_eq_add_of_le h
  show nsLe ((onePass m es)^[p] ns) ((onePass m es)^[p + d] ns)
  rw [Nat.add_comm, Function.iterate_add_apply]
  exact iterate_onePass_le m es d _

theorem flagOf_mono {a b : ResolvedDep} (hab : depLe a b) {k : DepKind}
    (h : flagOf a k = true) : flagOf b k = true := by
  rcases hab with ⟨_, _, _, hr, hb, hd, ho⟩
  cases k with
  | Regular => exact hr h
  | Build => exact hb h
  | Dev => exact hd h
  | Optional => exact ho h
  | Unknown => exact absurd h (by simp [flagOf])

theorem flagAt_mono {ns ns' : List ResolvedDep} (h : nsLe ns ns') {i : Nat}
    {k : DepKind} (hk : flagAt ns i k = true) : flagAt ns' i k = true := by
  unfold flagAt at hk ⊢
  cases ha : ns[i]? with
  | none => rw [ha] at hk; cases hk
  | some a =>
    rw [ha] at hk
    have hi : i < ns'.length := by
      rw [← h.1]
      rcases List.getElem?_eq_some_iff.mp ha with ⟨hlt, _⟩
      exact hlt
    have hb : ns'[i]? = some ns'[i] := List.getElem?_eq_getElem hi
    rw [hb]
    exact flagOf_mono (h.2 i a _ ha hb) hk

theorem markRoot_le (ns : List ResolvedDep) : nsLe ns (markRoot ns) := by
  unfold markRoot
  cases h0 : ns[0]? with
  | none => exact nsLe_refl ns
  | some d =>
    dsimp only
    exact nsLe_set ns 0 h0
      ⟨rfl, rfl, rfl, fun _ => rfl, fun h => h, fun h => h, fun h => h⟩

theorem set_getElem_self (ns : List ResolvedDep) (j : Nat) (d : ResolvedDep)
    (h : ns[j]? = some d) : ns.set j d = ns := by
  apply List.ext_getElem?
  intro i
  by_cases hij : j = i
  · subst hij
    rw [List.getElem?_set_self', h]
    rfl
  · rw [List.getElem?_set_ne hij]

theorem copyFlags_of_clear (src dst : ResolvedDep) (h : anyFlag src = false) :
    copyFlags src dst = dst := by
  unfold anyFlag at h
  simp only [Bool.or_eq_false_iff] at h
  obtain ⟨⟨⟨hr, hb⟩, hd⟩, ho⟩ := h
  simp [copyFlags, hr, hb, hd, ho]

theorem stepEdgeP_sound (m : DeclaredDepsMap) (ns : List ResolvedDep)
    (e : Edge) (ns1 : List ResolvedDep) (h : stepEdgeP m ns e = some ns1) :
    ns1 = stepEdge m ns e := by
  unfold stepEdgeP at h
  unfold stepEdge
  by_cases h0 : e.1 = 0
  · rw [if_pos h0] at h ⊢
    cases hc : ns[e.2]? with
    | none =>
      rw [hc] at h
      dsimp only at h
      cases h
    | some child =>
      rw [hc] at h
      dsimp only at h
      dsimp only
      cases hl : lookupKinds m child.name with
      | none =>
        rw [hl] at h
        dsimp only at h
        cases h
        rfl
      | some kinds =>
        rw [hl] at h
        dsimp only at h
        cases h
        rfl
  · rw [if_neg h0] at h ⊢
    cases hc1 : ns[e.1]? with
    | none =>
      rw [hc1] at h
      dsimp only at h
      cases h
    | some src =>
      rw [hc1] at h
      dsimp only at h
      by_cases haf : anyFlag src = true
      · rw [if_pos haf] at h
        cases hc2 : ns[e.2]? with
        | none =>
          rw [hc2] at h
          dsimp only at h
          cases h
        | some dst =>
          rw [hc2] at h
          dsimp only at h
          cases h
          rfl
      · rw [if_neg haf] at h
        cases h
        cases hc2 : ns[e.2]? with
        | none => rfl
        | some dst =>
          dsimp only
          rw [copyFlags_of_clear src dst (by simpa using haf),
            set_getElem_self ns e.2 dst hc2]

theorem stepEdgeP_ne_none (m : DeclaredDepsMap) (ns : List ResolvedDep)
    (e : Edge) (h1 : e.1 < ns.length) (h2 : e.2 < ns.length) :
    stepEdgeP m ns e ≠ none := by
  have hs1 : ns[e.1]? = some ns[e.1] := List.getElem?_eq_getElem h1
  have hs2 : ns[e.2]? = some ns[e.2] := List.getElem?_eq_getElem h2
  unfold stepEdgeP
  by_cases h0 : e.1 = 0
  · rw [if_pos h0, hs2]
    dsimp only
    cases hl : lookupKinds m (ns[e.2]).name <;> simp
  · rw [if_neg h0, hs1]
    dsimp only
    by_cases haf : anyFlag ns[e.1] = true
    · rw [if_pos haf, hs2]
      simp
    · rw [if_neg haf]
      simp

theorem stepEdgeP_eq_of_inRange (m : DeclaredDepsMap) (ns : List ResolvedDep)
    (e : Edge) (h1 : e.1 < ns.length) (h2 : e.2 < ns.length) :
    stepEdgeP m ns e = some (stepEdge m ns e) := by
  cases hP : stepEdgeP m ns e with
  | none => exact absurd hP (stepEdgeP_ne_none m ns e h1 h2)
  | some ns1 => rw [stepEdgeP_sound m ns e ns1 hP]

theorem passP_sound (m : DeclaredDepsMap) :
    ∀ (es : List Edge) (ns ns1 : List ResolvedDep),
      passP m es ns = some ns1 → ns1 = onePass m es ns := by
  intro es
  induction es with
  | nil =>
    intro ns ns1 h
    cases h
    rfl
  | cons e rest ih =>
    intro ns ns1 h
    unfold passP at h
    cases hP : stepEdgeP m ns e with
    | none =>
      rw [hP] at h
      cases h
    | some ns2 =>
      rw [hP] at h
      dsimp only at h
      rw [ih ns2 ns1 h, stepEdgeP_sound m ns e ns2 hP]
      rfl

theorem passP_eq_of_inRange (m : DeclaredDepsMap) :
    ∀ (es : List Edge) (ns : List ResolvedDep),
      (∀ e ∈ es, e.1 < ns.length ∧ e.2 < ns.length) →
      passP m es ns = some (onePass m es ns) := by
  intro es
  induction es with
  | nil => intro ns _; rfl
  | cons e rest ih =>
    intro ns hr
    have hb := hr e (List.mem_cons_self e rest)
    unfold passP
    rw [stepEdgeP_eq_of_inRange m ns e hb.1 hb.2]
    dsimp only
    have hlen : (stepEdge m ns e).length = ns.length :=
      ((stepEdge_nsLe m ns e).1).symm
    rw [ih (stepEdge m ns e)
      (fun e2 he2 => by rw [hlen]; exact hr e2 (List.mem_cons_of_mem e he2))]
    rfl

theorem runPassesP_sound (m : DeclaredDepsMap) (es : List Edge) :
    ∀ (n : Nat) (ns ns1 : List ResolvedDep),
      runPassesP m es n ns = some ns1 → ns1 = runPasses m es n ns := by
  intro n
  induction n with
  | zero =>
    intro ns ns1 h
    cases h
    rfl
  | succ n ih =>
    intro ns ns1 h
    unfold runPassesP at h
    cases hP : passP m es ns with
    | none =>
      rw [hP] at h
      cases h
    | some ns2 =>
      rw [hP] at h
      dsimp only at h
      rw [ih ns2 ns1 h, passP_sound m es ns ns2 hP]
      exact (Function.iterate_succ_apply (onePass m es) n ns).symm

theorem runPassesP_eq_of_inRange (m : DeclaredDepsMap) (es : List Edge) :
    ∀ (n : Nat) (ns : List ResolvedDep),
      (∀ e ∈ es, e.1 < ns.length ∧ e.2 < ns.length) →
      runPassesP m es n ns = some (runPasses m es n ns) := by
  intro n
  induction n with
  | zero => intro ns _; rfl
  | succ n ih =>
    intro ns hr
    unfold runPassesP
    rw [passP_eq_of_inRange m es ns hr]
    dsimp only
    have hlen : (onePass m es ns).length = ns.length :=
      ((onePass_nsLe m es ns).1).symm
    rw [ih (onePass m es ns) (fun e2 he2 => by rw [hlen]; exact hr e2 he2)]
    exact congrArg some (Function.iterate_succ_apply (onePass m es) n ns).symm

theorem sorted_inRange_markRoot (g : DepGraph)
    (h : g.edges.all (edgeInRange g.nodes.length) = true) :
    ∀ e ∈ sSort edgeLe g.edges,
      e.1 < (markRoot g.nodes).length ∧ e.2 < (markRoot g.nodes).length := by
  intro e he
  have hall := List.all_eq_true.mp h e ((mem_sSort edgeLe e g.edges).mp he)
  unfold edgeInRange at hall
  simp only [Bool.and_eq_true, decide_eq_true_eq] at hall
  have hlen : (markRoot g.nodes).length = g.nodes.length :=
    ((markRoot_le g.nodes).1).symm
  rw [hlen]
  exact hall

theorem passP_none_of_root_oob (m : DeclaredDepsMap) :
    ∀ (es : List Edge) (ns : List ResolvedDep) (t : Nat),
      (0, t) ∈ es → ns.length ≤ t → passP m es ns = none := by
  intro es
  induction es with
  | nil =>
    intro ns t hmem
    exact absurd hmem (by simp)
  | cons e rest ih =>
    intro ns t hmem hoob
    unfold passP
    rcases List.mem_cons.mp hmem with heq | hmem2
    · subst heq
      have hnone : ns[t]? = none := List.getElem?_eq_none hoob
      have hstep : stepEdgeP m ns (0, t) = none := by
        unfold stepEdgeP
        dsimp only
        rw [if_pos rfl, hnone]
      rw [hstep]
    · cases hP : stepEdgeP m ns e with
      | none => rfl
      | some ns2 =>
        dsimp only
        have hlen : ns2.length = ns.length := by
          rw [stepEdgeP_sound m ns e ns2 hP]
          exact ((stepEdge_nsLe m ns e).1).symm
        exact ih ns2 t hmem2 (by rw [hlen]; exact hoob)

theorem set_resolved_kind_none_of_root_oob (g : DepGraph)
    (m : DeclaredDepsMap) (t : Nat) (hmem : (0, t) ∈ g.edges)
    (hoob : g.nodes.length ≤ t) : g.set_resolved_kind m = none := by
  unfold DepGraph.set_resolved_kind
  by_cases hE : g.nodes.isEmpty = true
  · rw [if_pos hE]
  · rw [if_neg hE]
    have hmem2 : (0, t) ∈ sSort edgeLe g.edges :=
      (mem_sSort edgeLe _ g.edges).mpr hmem
    have hlen : (markRoot g.nodes).length = g.nodes.length :=
      ((markRoot_le g.nodes).1).symm
    have hrp : runPassesP m (sSort edgeLe g.edges) 10 (markRoot g.nodes) = none := by
      unfold runPassesP
      rw [passP_none_of_root_oob m (sSort edgeLe g.edges) (markRoot g.nodes) t
        hmem2 (by rw [hlen]; exact hoob)]
    rw [hrp]

/-- C7: during `set_resolved_kind` the four kind flags only transition from
false to true: a flag true after pass `p` is still true after every later
pass `q`, and still true in the graph the function returns. -/
theorem kind_flags_monotone (g : DepGraph) (m : DeclaredDepsMap) (p q : Nat)
    (hpq : p ≤ q) (i : Nat) (k : DepKind)
    (h : flagAt (runPasses m (sSort edgeLe g.edges) p (markRoot g.nodes)) i k = true) :
    flagAt (runPasses m (sSort edgeLe g.edges) q (markRoot g.nodes)) i k = true ∧
    (∀ g', p ≤ 10 → g.set_resolved_kind m = some g' → flagAt g'.nodes i k = true) := by
  constructor
  · exact flagAt_mono (runPasses_nsLe m _ p q (markRoot g.nodes) hpq) h
  · intro g' hp10 hsome
    have h10 := flagAt_mono (runPasses_nsLe m _ p 10 (markRoot g.nodes) hp10) h
    unfold DepGraph.set_resolved_kind at hsome
    split at hsome
    · cases hsome
    · cases hr : runPassesP m (sSort edgeLe g.edges) 10 (markRoot g.nodes) with
      | none =>
        rw [hr] at hsome
        cases hsome
      | some ns1 =>
        rw [hr] at hsome
        dsimp only at hsome
        cases hsome
        show flagAt ns1 i k = true
        rw [runPassesP_sound m (sSort edgeLe g.edges) 10 (markRoot g.nodes) ns1 hr]
        exact h10

theorem kind_flags_monotone_witness :
    flagAt (runPasses [] (sSort edgeLe exSingle.edges) 1 (markRoot exSingle.nodes))
      0 DepKind.Regular = true ∧
    (∀ g', (0 : Nat) ≤ 10 → exSingle.set_resolved_kind [] = some g' →
      flagAt g'.nodes 0 DepKind.Regular = true) :=
  kind_flags_monotone exSingle [] 0 1 (Nat.zero_le 1) 0 DepKind.Regular (by decide)

/-! ## Soundness and completeness of the 10-pass propagation (C4) -/

theorem flagAt_eq_true_iff (ns : List ResolvedDep) (i : Nat) (k : DepKind) :
    flagAt ns i k = true ↔ ∃ d, ns[i]? = some d ∧ flagOf d k = true := by
  unfold flagAt
  cases h : ns[i]? with
  | none => simp
  | some d => simp

theorem flagAt_set_ne (ns : List ResolvedDep) (b : Nat) (x : ResolvedDep)
    {i : Nat} (hib : i ≠ b) (k : DepKind) :
    flagAt (ns.set b x) i k = flagAt ns i k := by
  unfold flagAt
  rw [List.getElem?_set_ne (fun hh => hib hh.symm)]

theorem flagOf_setFlag (d : ResolvedDep) (kp k : DepKind) :
    flagOf (setFlag d kp) k = true ↔
      flagOf d k = true ∨ (kp = k ∧ k ≠ DepKind.Unknown) := by
  cases kp <;> cases k <;> simp [setFlag, flagOf]

theorem flagOf_foldl_setFlag (ks : List DepKind) (d : ResolvedDep) (k : DepKind) :
    flagOf (ks.foldl setFlag d) k = true ↔
      flagOf d k = true ∨ (k ∈ ks ∧ k ≠ DepKind.Unknown) := by
  induction ks generalizing d with
  | nil => simp
  | cons kp ks ih =>
    rw [List.foldl_cons, ih (setFlag d kp), flagOf_setFlag]
    simp only [List.mem_cons]
    constructor
    · rintro ((h | ⟨rfl, hne⟩) | ⟨hk, hne⟩)
      · exact Or.inl h
      · exact Or.inr ⟨Or.inl rfl, hne⟩
      · exact Or.inr ⟨Or.inr hk, hne⟩
    · rintro (h | ⟨(rfl | hk), hne⟩)
      · exact Or.inl (Or.inl h)
      · exact Or.inl (Or.inr ⟨rfl, hne⟩)
      · exact Or.inr ⟨hk, hne⟩

theorem flagOf_copyFlags (src dst : ResolvedDep) (k : DepKind) :
    flagOf (copyFlags src dst) k = true ↔
      flagOf dst k = true ∨ flagOf src k = true := by
  cases k <;> simp [copyFlags, flagOf]

theorem nsLe_name_eq {ns ns' : List ResolvedDep} (h : nsLe ns ns') (i : Nat) :
    (ns'[i]?).map (fun d => d.name) = (ns[i]?).map (fun d => d.name) := by
  by_cases hi : i < ns.length
  · have ha : ns[i]? = some ns[i] := List.getElem?_eq_getElem hi
    have hi' : i < ns'.length := h.1 ▸ hi
    have hb : ns'[i]? = some ns'[i] := List.getElem?_eq_getElem hi'
    rw [ha, hb]
    have hle := h.2 i _ _ ha hb
    simp [hle.1]
  · have ha : ns[i]? = none := List.getElem?_eq_none (Nat.le_of_not_lt hi)
    have hb : ns'[i]? = none := by
      apply List.getElem?_eq_none
      rw [← h.1]
      exact Nat.le_of_not_lt hi
    rw [ha, hb]

theorem base_le (m : DeclaredDepsMap) (es : List Edge) (p : Nat)
    (ns : List ResolvedDep) : nsLe ns (runPasses m es p (markRoot ns)) :=
  nsLe_trans (markRoot_le ns) (iterate_onePass_le m es p (markRoot ns))

theorem flagOf_clear {d : ResolvedDep}
    (hc : d.is_regular = false ∧ d.is_build = false ∧ d.is_dev = false ∧
      d.is_optional = false) (k : DepKind) : flagOf d k = false := by
  cases k <;> simp [flagOf, hc.1, hc.2.1, hc.2.2.1, hc.2.2.2]

theorem markRoot_sound (m : DeclaredDepsMap) (es₀ : List Edge)
    (ns₀ : List ResolvedDep)
    (hclear : ∀ d ∈ ns₀, d.is_regular = false ∧ d.is_build = false ∧
      d.is_dev = false ∧ d.is_optional = false) :
    ∀ (i : Nat) (k : DepKind), flagAt (markRoot ns₀) i k = true →
      Derives m es₀ ns₀ i k := by
  intro i k h
  rcases (flagAt_eq_true_iff _ i k).mp h with ⟨x, hx, hfx⟩
  unfold markRoot at hx
  cases h0 : ns₀[0]? with
  | none =>
    rw [h0] at hx
    rw [flagOf_clear (hclear x (List.getElem?_mem hx)) k] at hfx
    cases hfx
  | some d =>
    rw [h0] at hx
    dsimp only at hx
    by_cases hi : i = 0
    · subst hi
      have hset : (ns₀.set 0 { d with is_regular := true })[0]? =
          some { d with is_regular := true } := by
        rw [List.getElem?_set_self', h0]
        rfl
      rw [hset] at hx
      cases hx
      have hcd := hclear d (List.getElem?_mem h0)
      cases k with
      | Regular => exact Derives.root
      | Build => simp [flagOf, hcd.2.1] at hfx
      | Dev => simp [flagOf, hcd.2.2.1] at hfx
      | Optional => simp [flagOf, hcd.2.2.2] at hfx
      | Unknown => simp [flagOf] at hfx
    · rw [List.getElem?_set_ne (fun hh => hi hh.symm)] at hx
      rw [flagOf_clear (hclear x (List.getElem?_mem hx)) k] at hfx
      cases hfx

theorem stepEdge_sound (m : DeclaredDepsMap) (es₀ : List Edge)
    (ns₀ ns' : List ResolvedDep) (e : Edge) (hn : nsLe ns₀ ns')
    (hS : ∀ (i : Nat) (k : DepKind), flagAt ns' i k = true →
      Derives m es₀ ns₀ i k)
    (he : e ∈ es₀) :
    ∀ (i : Nat) (k : DepKind), flagAt (stepEdge m ns' e) i k = true →
      Derives m es₀ ns₀ i k := by
  obtain ⟨a, b⟩ := e
  intro i k h
  unfold stepEdge at h
  dsimp only at h
  by_cases h0 : a = 0
  · subst h0
    rw [if_pos rfl] at h
    cases hc : ns'[b]? with
    | none =>
      rw [hc] at h
      exact hS i k h
    | some child =>
      rw [hc] at h
      dsimp only at h
      cases hl : lookupKinds m child.name with
      | none =>
        rw [hl] at h
        exact hS i k h
      | some kinds =>
        rw [hl] at h
        dsimp only at h
        by_cases hib : i = b
        · subst hib
          rcases (flagAt_eq_true_iff _ i k).mp h with ⟨x, hx, hfx⟩
          have hset : (ns'.set i (kinds.foldl setFlag child))[i]? =
              some (kinds.foldl setFlag child) := by
            rw [List.getElem?_set_self', hc]
            rfl
          rw [hset] at hx
          cases hx
          rcases (flagOf_foldl_setFlag kinds child k).mp hfx with hold | ⟨hk, hku⟩
          · exact hS i k ((flagAt_eq_true_iff _ i k).mpr ⟨child, hc, hold⟩)
          · have hilen : i < ns'.length := by
              rcases List.getElem?_eq_some_iff.mp hc with ⟨hh, _⟩
              exact hh
            have hilen0 : i < ns₀.length := by
              rw [hn.1]
              exact hilen
            have hd0 : ns₀[i]? = some ns₀[i] := List.getElem?_eq_getElem hilen0
            have hname : ns₀[i].name = child.name := (hn.2 i _ _ hd0 hc).1
            exact Derives.decl he hd0 (by rw [hname]; exact hl) hk hku
        · rw [flagAt_set_ne ns' b _ hib k] at h
          exact hS i k h
  · rw [if_neg h0] at h
    cases hc1 : ns'[a]? with
    | none =>
      rw [hc1] at h
      exact hS i k h
    | some src =>
      rw [hc1] at h
      cases hc2 : ns'[b]? with
      | none =>
        rw [hc2] at h
        exact hS i k h
      | some dst =>
        rw [hc2] at h
        dsimp only at h
        by_cases hib : i = b
        · subst hib
          rcases (flagAt_eq_true_iff _ i k).mp h with ⟨x, hx, hfx⟩
          have hset : (ns'.set i (copyFlags src dst))[i]? =
              some (copyFlags src dst) := by
            rw [List.getElem?_set_self', hc2]
            rfl
          rw [hset] at hx
          cases hx
          rcases (flagOf_copyFlags src dst k).mp hfx with hd | hs
          · exact hS i k ((flagAt_eq_true_iff _ i k).mpr ⟨dst, hc2, hd⟩)
          · have hsa : Derives m es₀ ns₀ a k :=
              hS a k ((flagAt_eq_true_iff _ a k).mpr ⟨src, hc1, hs⟩)
            exact Derives.step he h0 hsa
        · rw [flagAt_set_ne ns' b _ hib k] at h
          exact hS i k h

theorem foldl_stepEdge_sound (m : DeclaredDepsMap) (es₀ : List Edge)
    (ns₀ : List ResolvedDep) :
    ∀ (es' : List Edge) (ns' : List ResolvedDep), (∀ e ∈ es', e ∈ es₀) →
      nsLe ns₀ ns' →
      (∀ (i : Nat) (k : DepKind), flagAt ns' i k = true →
        Derives m es₀ ns₀ i k) →
      ∀ (i : Nat) (k : DepKind), flagAt (es'.foldl (stepEdge m) ns') i k = true →
        Derives m es₀ ns₀ i k := by
  intro es'
  induction es' with
  | nil => exact fun ns' _ _ hS i k h => hS i k h
  | cons e rest ih =>
    intro ns' hsub hn hS i k h
    rw [List.foldl_cons] at h
    exact ih (stepEdge m ns' e)
      (fun e' he' => hsub e' (List.mem_cons_of_mem e he'))
      (nsLe_trans hn (stepEdge_nsLe m ns' e))
      (stepEdge_sound m es₀ ns₀ ns' e hn hS (hsub e (List.mem_cons_self e rest)))
      i k h

theorem runPasses_sound (m : DeclaredDepsMap) (es es₀ : List Edge)
    (ns₀ : List ResolvedDep) (hsub : ∀ e ∈ es, e ∈ es₀)
    (hclear : ∀ d ∈ ns₀, d.is_regular = false ∧ d.is_build = false ∧
      d.is_dev = false ∧ d.is_optional = false) :
    ∀ (p i : Nat) (k : DepKind),
      flagAt (runPasses m es p (markRoot ns₀)) i k = true →
        Derives m es₀ ns₀ i k := by
  intro p
  induction p with
  | zero => exact markRoot_sound m es₀ ns₀ hclear
  | succ p ih =>
    intro i k h
    rw [show runPasses m es (p + 1) (markRoot ns₀) =
        onePass m es (runPasses m es p (markRoot ns₀)) from
      Function.iterate_succ_apply' (onePass m es) p (markRoot ns₀)] at h
    exact foldl_stepEdge_sound m es₀ ns₀ es (runPasses m es p (markRoot ns₀))
      hsub (base_le m es p ns₀) ih i k h

theorem foldl_sets_decl (m : DeclaredDepsMap) :
    ∀ (es' : List Edge) (ns' : List ResolvedDep) (t : Nat) (nm : String)
      (ks : List DepKind) (k : DepKind),
      (0, t) ∈ es' → (ns'[t]?).map (fun d => d.name) = some nm →
      lookupKinds m nm = some ks → k ∈ ks → k ≠ DepKind.Unknown →
      flagAt (es'.foldl (stepEdge m) ns') t k = true := by
  intro es'
  induction es' with
  | nil =>
    intro ns' t nm ks k hmem
    exact absurd hmem (by simp)
  | cons e rest ih =>
    intro ns' t nm ks k hmem hname hlk hk hku
    rw [List.foldl_cons]
    rcases List.mem_cons.mp hmem with heq | hmem'
    · subst heq
      rcases Option.map_eq_some'.mp hname with ⟨child, hc, hcn⟩
      have hstep : flagAt (stepEdge m ns' (0, t)) t k = true := by
        unfold stepEdge
        dsimp only
        rw [if_pos rfl, hc]
        dsimp only
        rw [hcn, hlk]
        dsimp only
        apply (flagAt_eq_true_iff _ t k).mpr
        refine ⟨ks.foldl setFlag child, ?_, ?_⟩
        · rw [List.getElem?_set_self', hc]
          rfl
        · exact (flagOf_foldl_setFlag ks child k).mpr (Or.inr ⟨hk, hku⟩)
      exact flagAt_mono (onePass_nsLe m rest (stepEdge m ns' (0, t))) hstep
    · apply ih (stepEdge m ns' e) t nm ks k hmem' ?_ hlk hk hku
      rw [nsLe_name_eq (stepEdge_nsLe m ns' e) t]
      exact hname

theorem foldl_sets_step (m : DeclaredDepsMap) :
    ∀ (es' : List Edge) (ns' : List ResolvedDep) (s t : Nat) (k : DepKind),
      (s, t) ∈ es' → s ≠ 0 → t < ns'.length → flagAt ns' s k = true →
      flagAt (es'.foldl (stepEdge m) ns') t k = true := by
  intro es'
  induction es' with
  | nil =>
    intro ns' s t k hmem
    exact absurd hmem (by simp)
  | cons e rest ih =>
    intro ns' s t k hmem hs0 htlen hflag
    rw [List.foldl_cons]
    rcases List.mem_cons.mp hmem with heq | hmem'
    · subst heq
      rcases (flagAt_eq_true_iff _ s k).mp hflag with ⟨src, hsrc, hfs⟩
      have hdst : ns'[t]? = some ns'[t] := List.getElem?_eq_getElem htlen
      have hstep : flagAt (stepEdge m ns' (s, t)) t k = true := by
        unfold stepEdge
        dsimp only
        rw [if_neg hs0, hsrc, hdst]
        dsimp only
        apply (flagAt_eq_true_iff _ t k).mpr
        refine ⟨copyFlags src ns'[t], ?_, ?_⟩
        · rw [List.getElem?_set_self', hdst]
          rfl
        · exact (flagOf_copyFlags src ns'[t] k).mpr (Or.inr hfs)
      exact flagAt_mono (onePass_nsLe m rest (stepEdge m ns' (s, t))) hstep
    · apply ih (stepEdge m ns' e) s t k hmem' hs0 ?_ ?_
      · rw [← (stepEdge_nsLe m ns' e).1]
        exact htlen
      · exact flagAt_mono (stepEdge_nsLe m ns' e) hflag

theorem runPasses_complete (m : DeclaredDepsMap) (es es₀ : List Edge)
    (ns₀ : List ResolvedDep) (hsub : ∀ e ∈ es₀, e ∈ es)
    (hr : ∀ e ∈ es₀, e.2 < ns₀.length) (hne : ns₀ ≠ []) :
    ∀ (p i : Nat) (k : DepKind), DerivesN m es₀ ns₀ p i k →
      flagAt (runPasses m es p (markRoot ns₀)) i k = true := by
  intro p i k h
  induction h with
  | root =>
    rename_i n
    have h0 : flagAt (markRoot ns₀) 0 DepKind.Regular = true := by
      have hlen : 0 < ns₀.length := List.length_pos.mpr hne
      have h00 : ns₀[0]? = some ns₀[0] := List.getElem?_eq_getElem hlen
      apply (flagAt_eq_true_iff _ 0 DepKind.Regular).mpr
      refine ⟨{ ns₀[0] with is_regular := true }, ?_, rfl⟩
      unfold markRoot
      rw [h00]
      dsimp only
      rw [List.getElem?_set_self', h00]
      rfl
    exact flagAt_mono (runPasses_nsLe m es 0 n (markRoot ns₀) (Nat.zero_le n)) h0
  | decl hmem hd hlk hk hku =>
    rename_i n t d ks kk
    rw [show runPasses m es (n + 1) (markRoot ns₀) =
        onePass m es (runPasses m es n (markRoot ns₀)) from
      Function.iterate_succ_apply' (onePass m es) n (markRoot ns₀)]
    apply foldl_sets_decl m es (runPasses m es n (markRoot ns₀)) t d.name ks kk
      (hsub _ hmem) ?_ hlk hk hku
    rw [nsLe_name_eq (base_le m es n ns₀) t, hd]
    rfl
  | step hmem hs0 hder ih =>
    rename_i n s t kk
    rw [show runPasses m es (n + 1) (markRoot ns₀) =
        onePass m es (runPasses m es n (markRoot ns₀)) from
      Function.iterate_succ_apply' (onePass m es) n (markRoot ns₀)]
    apply foldl_sets_step m es (runPasses m es n (markRoot ns₀)) s t kk
      (hsub _ hmem) hs0 ?_ ih
    rw [← (base_le m es n ns₀).1]
    exact hr _ hmem

/-- C4: `set_resolved_kind` runs exactly 10 full passes over the edge list
sorted by (source id, target id), and for every graph whose dependency
chains from the root are under 10 hops (every derivable kind fact is
derivable within 10 hops, `hdepth`), afterwards every node's kind flags
equal the union of kinds over all paths reaching it from the root
(`Derives`): an edge from node 0 contributes the kinds the declared-deps map
lists for the target's name, any other edge contributes its source's kinds,
and the root itself is regular by definition.  Hypotheses: at least one node
(else the code panics, claim C9), all edges in range (else it panics, claim
C3), and all flags initially false (the state every graph built by
`find_or_add` is in). -/
theorem set_resolved_kind_flags (g : DepGraph) (m : DeclaredDepsMap)
    (hne : g.nodes ≠ [])
    (hrange : g.edges.all (edgeInRange g.nodes.length) = true)
    (hclear : ∀ d ∈ g.nodes, d.is_regular = false ∧ d.is_build = false ∧
      d.is_dev = false ∧ d.is_optional = false)
    (hdepth : ∀ (i : Nat) (k : DepKind), Derives m g.edges g.nodes i k →
      DerivesN m g.edges g.nodes 10 i k) :
    g.set_resolved_kind m = some { g with
      nodes := runPasses m (sSort edgeLe g.edges) 10 (markRoot g.nodes),
      edges := sSort edgeLe g.edges } ∧
    ∀ (i : Nat) (k : DepKind),
      flagAt (runPasses m (sSort edgeLe g.edges) 10 (markRoot g.nodes)) i k = true ↔
        Derives m g.edges g.nodes i k := by
  have hsub1 : ∀ e ∈ sSort edgeLe g.edges, e ∈ g.edges :=
    fun e he => (mem_sSort edgeLe e g.edges).mp he
  have hsub2 : ∀ e ∈ g.edges, e ∈ sSort edgeLe g.edges :=
    fun e he => (mem_sSort edgeLe e g.edges).mpr he
  have hr2 : ∀ e ∈ g.edges, e.2 < g.nodes.length := by
    intro e he
    have hall := List.all_eq_true.mp hrange e he
    unfold edgeInRange at hall
    simp only [Bool.and_eq_true, decide_eq_true_eq] at hall
    exact hall.2
  constructor
  · rw [DepGraph.set_resolved_kind, if_neg (by simp [List.isEmpty_iff, hne]),
      runPassesP_eq_of_inRange m (sSort edgeLe g.edges) 10 (markRoot g.nodes)
        (sorted_inRange_markRoot g hrange)]
  · intro i k
    constructor
    · exact fun h =>
        runPasses_sound m (sSort edgeLe g.edges) g.edges g.nodes hsub1 hclear
          10 i k h
    · exact fun hder =>
        runPasses_complete m (sSort edgeLe g.edges) g.edges g.nodes hsub2 hr2
          hne 10 i k (hdepth i k hder)

theorem set_resolved_kind_flags_witness :
    exSingle.set_resolved_kind [] = some { exSingle with
      nodes := runPasses [] (sSort edgeLe exSingle.edges) 10 (markRoot exSingle.nodes),
      edges := sSort edgeLe exSingle.edges } ∧
    ∀ (i : Nat) (k : DepKind),
      flagAt (runPasses [] (sSort edgeLe exSingle.edges) 10
        (markRoot exSingle.nodes)) i k = true ↔
        Derives [] exSingle.edges exSingle.nodes i k :=
  set_resolved_kind_flags exSingle [] (by decide) (by decide)
    (by
      intro d hd
      simp only [exSingle, List.mem_singleton] at hd
      subst hd
      exact ⟨rfl, rfl, rfl, rfl⟩)
    (by
      intro i k h
      cases h with
      | root => exact DerivesN.root
      | decl hmem hd hlk hk hku => exact absurd hmem (by simp [exSingle])
      | step hmem hs0 hder => exact absurd hmem (by simp [exSingle]))

/-! ## C9: set_resolved_kind requires a nonempty node list -/

/-- C9: `set_resolved_kind` writes `nodes[0].is_regular` before examining any
edge, so on an empty node list it panics (modelled by `none`); with at least
one node and in-range edges (so that no per-edge dereference can panic
either) it completes. -/
theorem set_resolved_kind_requires_nonempty (g : DepGraph) (m : DeclaredDepsMap) :
    (g.nodes = [] → g.set_resolved_kind m = none) ∧
    (g.nodes ≠ [] → g.edges.all (edgeInRange g.nodes.length) = true →
      (g.set_resolved_kind m).isSome = true) := by
  constructor
  · intro h
    rw [DepGraph.set_resolved_kind, if_pos (List.isEmpty_iff.mpr h)]
  · intro h1 h2
    rw [DepGraph.set_resolved_kind, if_neg (by simp [List.isEmpty_iff, h1]),
      runPassesP_eq_of_inRange m (sSort edgeLe g.edges) 10 (markRoot g.nodes)
        (sorted_inRange_markRoot g h2)]
    rfl

theorem set_resolved_kind_requires_nonempty_witness :
    exEmpty.nodes = [] ∧ exEmpty.set_resolved_kind [] = none :=
  ⟨rfl, (set_resolved_kind_requires_nonempty exEmpty []).1 rfl⟩

/-! ## C3: out-of-range edges across the passes -/

/-- C3 (amended): for every graph with a nonempty node list, `remove_orphans`
does not panic and silently drops every edge with an out-of-range endpoint
before pruning: afterwards every remaining edge has both endpoints in range
and the node lookups rendering performs on those edges succeed.  Kind
propagation, however, is not protected: whenever an out-of-range target sits
on an edge leaving the root, `set_resolved_kind` panics (second conjunct;
the counterexample exhibits it at the concrete edge (0, 5)). -/
theorem remove_orphans_drops_oob (g : DepGraph) (hne : g.nodes ≠ []) :
    (∃ g', g.remove_orphans = some g' ∧
      (∀ e ∈ g'.edges, e.1 < g'.nodes.length ∧ e.2 < g'.nodes.length) ∧
      (∀ e ∈ g'.edges, (g'.get e.1).isSome = true ∧ (g'.get e.2).isSome = true)) ∧
    (∀ (m : DeclaredDepsMap) (t : Nat), (0, t) ∈ g.edges →
      g.nodes.length ≤ t → g.set_resolved_kind m = none) := by
  constructor
  · have hiso : ¬g.nodes.isEmpty = true := by simp [List.isEmpty_iff, hne]
    have hrange : ∀ e ∈ g.edges.filter (edgeInRange g.nodes.length),
        e.1 < g.nodes.length ∧ e.2 < g.nodes.length := by
      intro e he
      have h2 := (List.mem_filter.mp he).2
      unfold edgeInRange at h2
      simpa [Bool.and_eq_true] using h2
    rcases orphanLoop_spec g.nodes (g.edges.filter (edgeInRange g.nodes.length))
      hrange hne with ⟨_, _, hc, _⟩
    refine ⟨{ g with
        nodes := (orphanLoop g.nodes (g.edges.filter (edgeInRange g.nodes.length))).1,
        edges := (orphanLoop g.nodes (g.edges.filter (edgeInRange g.nodes.length))).2 },
      ?_, hc, ?_⟩
    · rw [DepGraph.remove_orphans, if_neg hiso]
    · intro e he
      have h1 := (hc e he).1
      have h2 := (hc e he).2
      constructor
      · simp only [DepGraph.get]
        rw [if_pos h1, List.getElem?_eq_getElem h1]
        rfl
      · simp only [DepGraph.get]
        rw [if_pos h2, List.getElem?_eq_getElem h2]
        rfl
  · intro m t hmem hoob
    exact set_resolved_kind_none_of_root_oob g m t hmem hoob

theorem remove_orphans_drops_oob_witness :
    (∃ g', exOrphanOob.remove_orphans = some g' ∧
      (∀ e ∈ g'.edges, e.1 < g'.nodes.length ∧ e.2 < g'.nodes.length) ∧
      (∀ e ∈ g'.edges, (g'.get e.1).isSome = true ∧ (g'.get e.2).isSome = true)) ∧
    (∀ (m : DeclaredDepsMap) (t : Nat), (0, t) ∈ exOrphanOob.edges →
      exOrphanOob.nodes.length ≤ t → exOrphanOob.set_resolved_kind m = none) :=
  remove_orphans_drops_oob exOrphanOob (by decide)
